import Mathlib

/-!
Verification of miri-script `util.rs`.

A shallow embedding of the pure / state-machine content of
`src/tools/miri/miri-script/src/util.rs`:

* `flagsplit` — splitting a flag string into tokens;
* `arg_flag_value` — scanning CLI tokens for a flag's value;
* `chunksOf` / `format_files` — the batching done by `MiriEnv::format_files`;
* `RState` / `Step` — a small-step model of `MiriEnv::run_many_times`,
  the parallel worker pool pulling work units from a shared atomic counter.

Strings are modelled as `List Char`, paths as `List String` (components),
`u32` arithmetic as `Nat` reduced modulo `2^32` where the source can wrap.
-/

namespace MiriScript

/-- Rust `char::is_whitespace`: the Unicode `White_Space` code points. -/
def rustWhitespace (c : Char) : Bool :=
  [9, 10, 11, 12, 13, 32, 133, 160, 5760, 8192, 8193, 8194, 8195, 8196, 8197,
    8198, 8199, 8200, 8201, 8202, 8232, 8233, 8239, 8287, 12288].contains c.toNat

/-- Rust `str::split(sep)`: cuts at every occurrence of `sep`; adjacent
separators and separators at the ends produce empty pieces, and the empty
string yields one empty piece. -/
def splitOnChar (sep : Char) : List Char → List (List Char)
  | [] => [[]]
  | c :: cs =>
    match splitOnChar sep cs with
    | [] => if c = sep then [[], []] else [[c]]
    | t :: ts => if c = sep then [] :: t :: ts else (c :: t) :: ts

/-- Rust `str::trim`: remove leading and trailing whitespace.  Written as
"trim the front, then trim the front of the reversal", which removes exactly
the leading and trailing whitespace runs. -/
def trimChars (s : List Char) : List Char :=
  ((s.dropWhile rustWhitespace).reverse.dropWhile rustWhitespace).reverse

/-- Function `flagsplit` from `util.rs`:
`flags.split(' ').map(str::trim).filter(|s| !s.is_empty())`. -/
def flagsplit (flags : List Char) : List (List Char) :=
  ((splitOnChar ' ' flags).map trimChars).filter (fun s => !s.isEmpty)

/-- The literal `"--"` separator token. -/
def ddash : List Char := ['-', '-']

/-- Rust `str::strip_prefix`: remove `p` from the front of `s` if `s` starts
with it, otherwise fail. -/
def stripPref {α : Type} [DecidableEq α] : List α → List α → Option (List α)
  | [], s => some s
  | _ :: _, [] => none
  | p :: ps, c :: cs => if p = c then stripPref ps cs else none

/-- A CLI token as handed to `arg_flag_value`: an `OsStr` is either valid
UTF-8 (carrying its characters) or not (abstracted by a tag, since the
source never looks inside a non-UTF-8 token: it can only compare it against
the UTF-8 literal `"--"`, which always fails, or return it verbatim). -/
inductive OsStrM where
  | valid : List Char → OsStrM
  | invalid : Nat → OsStrM
deriving DecidableEq

/-- Function `arg_flag_value` from `util.rs`: scan the tokens; return `none` at a
literal `"--"`; skip non-UTF-8 tokens; on a token equal to `flag` return the
next token (or `none` if there is none); on a token of the form
`flag=value` return `value`. -/
def arg_flag_value : List OsStrM → List Char → Option OsStrM
  | [], _ => none
  | a :: rest, flag =>
    if a = OsStrM.valid ddash then none
    else
      match a with
      | OsStrM.invalid _ => arg_flag_value rest flag
      | OsStrM.valid s =>
        if s = flag then
          match rest with
          | [] => none
          | v :: _ => some v
        else
          match (stripPref flag s).bind (stripPref ['=']) with
          | some val => some (OsStrM.valid val)
          | none => arg_flag_value rest flag

/-- A token that makes the scan of `arg_flag_value` do something other than
move on: the `"--"` separator, an exact match of the flag, or a
`flag=value` form. -/
def tokenHit (flag : List Char) : OsStrM → Bool
  | OsStrM.invalid _ => false
  | OsStrM.valid s =>
    s == ddash || s == flag || ((stripPref flag s).bind (stripPref ['='])).isSome

/-- Rust `Itertools::chunks(n)` as used by `format_files`: split a list into
consecutive chunks of `n` elements, the last one possibly shorter; an empty
list yields no chunks. -/
def chunksOf {α : Type} (n : Nat) : List α → List (List α)
  | [] => []
  | a :: l => (a :: l.take (n - 1)) :: chunksOf n (l.drop (n - 1))
termination_by l => l.length
decreasing_by simp [List.length_drop]; omega

/-- Errors of the modelled `format_files`: a `walkdir::Error` coming in with
the file sequence (abstracted by a tag), or a `Path::strip_prefix` failure. -/
inductive FmtError where
  | walk : Nat → FmtError
  | strip : FmtError
deriving DecidableEq

/-- The per-batch loop body of `format_files`: each incoming item is either
a `walkdir` error (which aborts) or a path, and each path is rewritten
relative to `dir` (`file.strip_prefix(&self.miri_dir)?`); the collected
relative paths are the trailing arguments of one `rustfmt` invocation. -/
def relativizeBatch (dir : List String) :
    List (Except Nat (List String)) → Except FmtError (List (List String))
  | [] => Except.ok []
  | Except.error n :: _ => Except.error (FmtError.walk n)
  | Except.ok p :: rest =>
    match stripPref dir p with
    | none => Except.error FmtError.strip
    | some rel =>
      match relativizeBatch dir rest with
      | Except.error e => Except.error e
      | Except.ok rels => Except.ok (rel :: rels)

/-- Process the batches in order, one `rustfmt` invocation per batch;
the first error aborts. -/
def formatRuns (dir : List String) :
    List (List (Except Nat (List String))) →
      Except FmtError (List (List (List String)))
  | [] => Except.ok []
  | batch :: more =>
    match relativizeBatch dir batch with
    | Except.error e => Except.error e
    | Except.ok args =>
      match formatRuns dir more with
      | Except.error e => Except.error e
      | Except.ok runs => Except.ok (args :: runs)

/-- Function `MiriEnv::format_files`: batch the incoming file sequence into chunks of
256 (`files.chunks(256)`) and issue one formatting-command invocation per
chunk; the result is the list of per-invocation relative-path argument
lists, in order. -/
def format_files (dir : List String) (files : List (Except Nat (List String))) :
    Except FmtError (List (List (List String))) :=
  formatRuns dir (chunksOf 256 files)

/-- The modulus `2^32` of the `AtomicU32` work counter. -/
def u32size : Nat := 4294967296

/-- The program counter of one worker thread inside the loop of
`run_many_times`. -/
inductive PC where
  | claim : PC
  | runOp : Nat → PC
  | setFlag : PC
  | checkFlag : PC
  | finished : Bool → PC
deriving DecidableEq

/-- Did this worker's closure return (`true` = returned `Ok`)? -/
def isFinished : PC → Bool
  | PC.finished _ => true
  | _ => false

/-- The shared state of `run_many_times` with `P` workers. -/
structure RState (P : Nat) where
  next : Nat
  failed : Bool
  claims : Nat
  dispatched : Multiset Nat
  workers : Fin P → PC

def initState (start : Nat) (P : Nat) : RState P :=
  { next := start % u32size, failed := false, claims := 0,
    dispatched := 0, workers := fun _ => PC.claim }

inductive Step {P : Nat} (op : Nat → Bool) (e : Nat) : RState P → RState P → Prop where
  | claim_done (s : RState P) (i : Fin P) :
      s.workers i = PC.claim → e ≤ s.next →
      Step op e s { s with next := (s.next + 1) % u32size,
                           claims := s.claims + 1,
                           workers := Function.update s.workers i (PC.finished true) }
  | claim_work (s : RState P) (i : Fin P) :
      s.workers i = PC.claim → s.next < e →
      Step op e s { s with next := (s.next + 1) % u32size,
                           claims := s.claims + 1,
                           workers := Function.update s.workers i (PC.runOp s.next) }
  | run_ok (s : RState P) (i : Fin P) (c : Nat) :
      s.workers i = PC.runOp c → op c = true →
      Step op e s { s with dispatched := Multiset.cons c s.dispatched,
                           workers := Function.update s.workers i PC.checkFlag }
  | run_fail (s : RState P) (i : Fin P) (c : Nat) :
      s.workers i = PC.runOp c → op c = false →
      Step op e s { s with dispatched := Multiset.cons c s.dispatched,
                           workers := Function.update s.workers i PC.setFlag }
  | set_flag (s : RState P) (i : Fin P) :
      s.workers i = PC.setFlag →
      Step op e s { s with failed := true,
                           workers := Function.update s.workers i (PC.finished false) }
  | check_stop (s : RState P) (i : Fin P) :
      s.workers i = PC.checkFlag → s.failed = true →
      Step op e s { s with workers := Function.update s.workers i (PC.finished true) }
  | check_continue (s : RState P) (i : Fin P) :
      s.workers i = PC.checkFlag → s.failed = false →
      Step op e s { s with workers := Function.update s.workers i PC.claim }

def Reach {P : Nat} (op : Nat → Bool) (e : Nat) : RState P → RState P → Prop :=
  Relation.ReflTransGen (Step op e)

@[reducible] def Terminal {P : Nat} (s : RState P) : Prop :=
  ∀ i, isFinished (s.workers i) = true

def dOne : PC → Nat := fun pc => if isFinished pc then 1 else 0

def doneCountW {P : Nat} (w : Fin P → PC) : Nat :=
  Finset.univ.sum fun j => dOne (w j)

def doneCount {P : Nat} (s : RState P) : Nat := doneCountW s.workers

def pcPend : PC → Multiset Nat
  | PC.runOp c => {c}
  | _ => 0

def pendingW {P : Nat} (w : Fin P → PC) : Multiset Nat :=
  Finset.univ.sum fun j => pcPend (w j)

def pending {P : Nat} (s : RState P) : Multiset Nat := pendingW s.workers

/-- Invariant of a `run_many_times` execution whose operation never fails:
the failure flag is clear, no worker is in the failure path, the counter is
`start` plus the number of claims so far (mod `2^32`), every claim beyond
the range's size has retired one worker, and the operations started (plus
the ones claimed but not yet started) are exactly the claimed in-range
units. -/
structure NFInv (start e : Nat) {P : Nat} (s : RState P) : Prop where
  hfail : s.failed = false
  hpc : ∀ i, s.workers i = PC.claim ∨ (∃ c, s.workers i = PC.runOp c)
      ∨ s.workers i = PC.checkFlag ∨ s.workers i = PC.finished true
  hnext : s.next = (start + s.claims) % u32size
  hcount : s.claims = min s.claims (e - start) + doneCount s
  hdisp : s.dispatched + pending s
      = ((List.range' start (min s.claims (e - start)) : List Nat) : Multiset Nat)

/-- Invariant of a `run_many_times` execution over an empty or reversed
range `[start, e)` with `e ≤ start`: no unit is ever claimed, so every
worker is still at `claim` or has finished successfully, nothing was
dispatched and the flag is clear. -/
structure EmpInv (start : Nat) {P : Nat} (s : RState P) : Prop where
  hfail : s.failed = false
  hpc : ∀ i, s.workers i = PC.claim ∨ s.workers i = PC.finished true
  hnext : s.next = (start + s.claims) % u32size
  hcount : s.claims = doneCount s
  hdisp : s.dispatched = 0

/-- The failure flag can only have been raised by a worker that went down
the failure path. -/
def FlagInv {P : Nat} (s : RState P) : Prop :=
  s.failed = true → ∃ i, s.workers i = PC.setFlag ∨ s.workers i = PC.finished false

/-! ## Lemmas about `flagsplit` -/

theorem head?_dropWhile_false {α : Type} (p : α → Bool) :
    ∀ (l : List α) (c : α), (l.dropWhile p).head? = some c → p c = false := by
  intro l
  induction l with
  | nil => intro c h; simp [List.dropWhile] at h
  | cons a l ih =>
    intro c h
    by_cases ha : p a
    · rw [List.dropWhile_cons_of_pos ha] at h
      exact ih c h
    · rw [List.dropWhile_cons_of_neg ha] at h
      simp at h
      subst h
      exact Bool.eq_false_iff.mpr ha

theorem dropWhile_reverse_head? {α : Type} (p : α → Bool) :
    ∀ l : List α, l.dropWhile p ≠ [] →
      (l.dropWhile p).reverse.head? = l.reverse.head? := by
  intro l
  induction l with
  | nil => intro h; simp [List.dropWhile] at h
  | cons a l ih =>
    intro h
    by_cases ha : p a
    · rw [List.dropWhile_cons_of_pos ha] at h ⊢
      have hl : l ≠ [] := by
        intro hnil
        rw [hnil] at h
        simp [List.dropWhile] at h
      rw [ih h, List.reverse_cons]
      obtain ⟨x, xs, hx⟩ := List.exists_cons_of_ne_nil hl
      have : l.reverse ≠ [] := by simp [hx]
      obtain ⟨y, ys, hy⟩ := List.exists_cons_of_ne_nil this
      rw [hy]
      rfl
    · rw [List.dropWhile_cons_of_neg ha]

theorem trimChars_head {u : List Char} {c : Char}
    (h : (trimChars u).head? = some c) : rustWhitespace c = false := by
  unfold trimChars at h
  set A := (u.dropWhile rustWhitespace).reverse with hA
  have hne : A.dropWhile rustWhitespace ≠ [] := by
    intro hnil
    rw [hnil] at h
    simp at h
  rw [dropWhile_reverse_head? _ _ hne] at h
  rw [hA, List.reverse_reverse] at h
  exact head?_dropWhile_false _ _ _ h

theorem trimChars_getLast {u : List Char} {c : Char}
    (h : (trimChars u).getLast? = some c) : rustWhitespace c = false := by
  unfold trimChars at h
  rw [List.getLast?_reverse] at h
  exact head?_dropWhile_false _ _ _ h

theorem mem_trimChars {u : List Char} {c : Char} (h : c ∈ trimChars u) : c ∈ u := by
  unfold trimChars at h
  rw [List.mem_reverse] at h
  have h2 := (List.dropWhile_sublist rustWhitespace).subset h
  rw [List.mem_reverse] at h2
  exact (List.dropWhile_sublist rustWhitespace).subset h2

theorem splitOnChar_not_mem (sep : Char) :
    ∀ (l : List Char) (t : List Char), t ∈ splitOnChar sep l → sep ∉ t := by
  intro l
  induction l with
  | nil =>
    intro t ht
    simp [splitOnChar] at ht
    simp [ht]
  | cons c cs ih =>
    intro t ht
    rw [splitOnChar] at ht
    rcases hs : splitOnChar sep cs with _ | ⟨t', ts⟩
    · rw [hs] at ht
      by_cases hc : c = sep
      · simp [hc] at ht
        simp [ht]
      · simp [hc] at ht
        subst ht
        simp
        exact fun hcontra => hc hcontra.symm
    · rw [hs] at ht
      by_cases hc : c = sep
      · simp [hc] at ht
        rcases ht with ht | ht | ht
        · simp [ht]
        · exact ih t (by rw [hs]; exact ht ▸ List.mem_cons_self t' ts)
        · exact ih t (by rw [hs]; exact List.mem_cons_of_mem t' ht)
      · simp [hc] at ht
        rcases ht with ht | ht
        · subst ht
          intro hmem
          rcases List.mem_cons.mp hmem with h1 | h1
          · exact hc h1.symm
          · exact ih t' (by rw [hs]; exact List.mem_cons_self t' ts) h1
        · exact ih t (by rw [hs]; exact List.mem_cons_of_mem t' ht)

theorem mem_flagsplit {s t : List Char} (h : t ∈ flagsplit s) :
    t.isEmpty = false ∧ ∃ u ∈ splitOnChar ' ' s, t = trimChars u := by
  unfold flagsplit at h
  rw [List.mem_filter] at h
  obtain ⟨hmem, hne⟩ := h
  rw [List.mem_map] at hmem
  obtain ⟨u, hu, huv⟩ := hmem
  exact ⟨by simpa using hne, u, hu, huv.symm⟩

/-- C5: every token returned by `flagsplit` is non-empty and has no leading
or trailing whitespace; moreover `flagsplit "  -a  -b "` is `["-a", "-b"]` and
`flagsplit ""` is `[]`. -/
theorem flagsplit_tokens_trimmed :
    (∀ (s t : List Char), t ∈ flagsplit s →
      t ≠ [] ∧ (∀ c, t.head? = some c → rustWhitespace c = false) ∧
        (∀ c, t.getLast? = some c → rustWhitespace c = false))
    ∧ flagsplit "  -a  -b ".toList = ["-a".toList, "-b".toList]
    ∧ flagsplit "".toList = [] := by
  refine ⟨?_, by decide, by decide⟩
  intro s t ht
  obtain ⟨hne, u, _, huv⟩ := mem_flagsplit ht
  subst huv
  refine ⟨?_, fun c hc => trimChars_head hc, fun c hc => trimChars_getLast hc⟩
  intro hnil
  rw [hnil] at hne
  simp at hne

/-- Witness for C5 at the concrete input `"  -a  -b "` and its first token. -/
theorem flagsplit_tokens_trimmed_witness :
    "-a".toList ≠ [] ∧ rustWhitespace '-' = false :=
  ⟨(flagsplit_tokens_trimmed.1 "  -a  -b ".toList "-a".toList (by decide)).1,
    (flagsplit_tokens_trimmed.1 "  -a  -b ".toList "-a".toList (by decide)).2.1
      '-' (by decide)⟩

/-- C2 counterexample: `flagsplit "a\tb"` returns the token `"a\tb"`, which
still contains the whitespace character `'\t'`; so it is not the case that
every whitespace character acts as a token separator. -/
theorem flagsplit_whitespace_counterexample :
    ¬ (∀ (s : List Char), ∀ t ∈ flagsplit s, ∀ c ∈ t, rustWhitespace c = false) := by
  intro h
  have := h ['a', '\t', 'b'] ['a', '\t', 'b'] (by decide) '\t' (by decide)
  exact absurd this (by decide)

/-- C2 (amended): `flagsplit` splits its input on the space character `' '`
only (so no returned token contains a space), trims each token and discards
empty tokens; other whitespace characters do not act as separators and may
remain inside a returned token, as the tab example shows. -/
theorem flagsplit_space_split :
    (∀ (s t : List Char), t ∈ flagsplit s → ' ' ∉ t)
    ∧ flagsplit ['a', '\t', 'b'] = [['a', '\t', 'b']] := by
  refine ⟨?_, by decide⟩
  intro s t ht hmem
  obtain ⟨_, u, hu, huv⟩ := mem_flagsplit ht
  subst huv
  exact splitOnChar_not_mem ' ' s u hu (mem_trimChars hmem)

/-- Witness for the amended C2 at the concrete input `"a\tb"`. -/
theorem flagsplit_space_split_witness : ' ' ∉ (['a', '\t', 'b'] : List Char) :=
  flagsplit_space_split.1 ['a', '\t', 'b'] ['a', '\t', 'b'] (by decide)

/-! ## Lemmas about `arg_flag_value` -/

theorem afv_invalid (n : Nat) (rest : List OsStrM) (flag : List Char) :
    arg_flag_value (OsStrM.invalid n :: rest) flag = arg_flag_value rest flag := rfl

theorem afv_valid (s : List Char) (rest : List OsStrM) (flag : List Char) :
    arg_flag_value (OsStrM.valid s :: rest) flag =
      if s = ddash then none
      else if s = flag then (match rest with | [] => none | v :: _ => some v)
      else match (stripPref flag s).bind (stripPref ['=']) with
        | some val => some (OsStrM.valid val)
        | none => arg_flag_value rest flag := by
  simp only [arg_flag_value, OsStrM.valid.injEq]

/-- Tokens on which the scan only moves on are irrelevant to the result. -/
theorem afv_skip (flag : List Char) :
    ∀ (l rest : List OsStrM), (l.all fun t => !tokenHit flag t) = true →
      arg_flag_value (l ++ rest) flag = arg_flag_value rest flag := by
  intro l
  induction l with
  | nil => intro rest _; rfl
  | cons a l ih =>
    intro rest hall
    rw [List.all_cons, Bool.and_eq_true] at hall
    obtain ⟨ha, hl⟩ := hall
    rw [Bool.not_eq_true'] at ha
    cases a with
    | invalid n => rw [List.cons_append, afv_invalid, ih rest hl]
    | valid s =>
      simp only [tokenHit, Bool.or_eq_false_iff, beq_eq_false_iff_ne] at ha
      obtain ⟨⟨h1, h2⟩, h3⟩ := ha
      have h3' : (stripPref flag s).bind (stripPref ['=']) = none := by
        rcases hx : (stripPref flag s).bind (stripPref ['=']) with _ | v
        · rfl
        · rw [hx] at h3; simp at h3
      rw [List.cons_append, afv_valid, if_neg h1, if_neg h2, h3']
      exact ih rest hl

theorem stripPref_append {α : Type} [DecidableEq α] (p q : List α) :
    stripPref p (p ++ q) = some q := by
  induction p with
  | nil => rfl
  | cons a p ih => simp [stripPref, ih]

theorem afv_halt (flag : List Char) (l r : List OsStrM)
    (hl : (l.all fun t => !tokenHit flag t) = true) :
    arg_flag_value (l ++ OsStrM.valid ddash :: r) flag = none := by
  rw [afv_skip flag l _ hl]
  rfl

theorem afv_found (flag : List Char) (l r : List OsStrM) (v : OsStrM)
    (hl : (l.all fun t => !tokenHit flag t) = true) (hf : flag ≠ ddash) :
    arg_flag_value (l ++ OsStrM.valid flag :: v :: r) flag = some v := by
  rw [afv_skip flag l _ hl, afv_valid, if_neg hf, if_pos rfl]

theorem afv_trailing (flag : List Char) (l : List OsStrM)
    (hl : (l.all fun t => !tokenHit flag t) = true) (hf : flag ≠ ddash) :
    arg_flag_value (l ++ [OsStrM.valid flag]) flag = none := by
  rw [afv_skip flag l _ hl, afv_valid, if_neg hf, if_pos rfl]

theorem afv_eqform (flag val : List Char) (l r : List OsStrM)
    (hl : (l.all fun t => !tokenHit flag t) = true) :
    arg_flag_value (l ++ OsStrM.valid (flag ++ '=' :: val) :: r) flag
      = some (OsStrM.valid val) := by
  have h1 : flag ++ '=' :: val ≠ ddash := by
    intro h
    have : ('=' : Char) ∈ ddash := h ▸ List.mem_append_right flag (List.mem_cons_self _ _)
    simp [ddash] at this
  have h2 : flag ++ '=' :: val ≠ flag := by
    intro h
    have := congrArg List.length h
    simp at this
  rw [afv_skip flag l _ hl, afv_valid, if_neg h1, if_neg h2, stripPref_append]
  rfl

/-- C4: `arg_flag_value` stops with "not found" at the first literal `"--"`
token; before that a token equal to the flag yields the next token (or
`none` at the end of the tokens), a `flag=value` token yields `value`, and
non-UTF-8 tokens are skipped; plus the spec's three concrete examples. -/
theorem arg_flag_value_spec :
    (∀ (l r : List OsStrM) (flag : List Char),
        (l.all fun t => !tokenHit flag t) = true →
        arg_flag_value (l ++ OsStrM.valid ddash :: r) flag = none)
    ∧ (∀ (l r : List OsStrM) (v : OsStrM) (flag : List Char),
        (l.all fun t => !tokenHit flag t) = true → flag ≠ ddash →
        arg_flag_value (l ++ OsStrM.valid flag :: v :: r) flag = some v)
    ∧ (∀ (l : List OsStrM) (flag : List Char),
        (l.all fun t => !tokenHit flag t) = true → flag ≠ ddash →
        arg_flag_value (l ++ [OsStrM.valid flag]) flag = none)
    ∧ (∀ (l r : List OsStrM) (flag val : List Char),
        (l.all fun t => !tokenHit flag t) = true →
        arg_flag_value (l ++ OsStrM.valid (flag ++ '=' :: val) :: r) flag
          = some (OsStrM.valid val))
    ∧ (∀ (n : Nat) (r : List OsStrM) (flag : List Char),
        arg_flag_value (OsStrM.invalid n :: r) flag = arg_flag_value r flag)
    ∧ arg_flag_value [OsStrM.valid "foo".toList, OsStrM.valid "--opt".toList,
        OsStrM.valid "val".toList, OsStrM.valid "bar".toList] "--opt".toList
        = some (OsStrM.valid "val".toList)
    ∧ arg_flag_value [OsStrM.valid "--opt=val2".toList] "--opt".toList
        = some (OsStrM.valid "val2".toList)
    ∧ arg_flag_value [OsStrM.valid "a".toList, OsStrM.valid "--".toList,
        OsStrM.valid "--opt".toList, OsStrM.valid "val".toList] "--opt".toList
        = none :=
  ⟨fun l r flag hl => afv_halt flag l r hl,
   fun l r v flag hl hf => afv_found flag l r v hl hf,
   fun l flag hl hf => afv_trailing flag l hl hf,
   fun l r flag val hl => afv_eqform flag val l r hl,
   fun n r flag => afv_invalid n r flag,
   by decide, by decide, by decide⟩

/-- Witness for C4 at concrete token lists. -/
theorem arg_flag_value_spec_witness :
    arg_flag_value [OsStrM.invalid 7, OsStrM.valid ddash, OsStrM.valid "x".toList]
      "--opt".toList = none
    ∧ arg_flag_value [OsStrM.invalid 7, OsStrM.valid "--opt".toList,
        OsStrM.valid "v".toList] "--opt".toList = some (OsStrM.valid "v".toList)
    ∧ arg_flag_value [OsStrM.valid "--opt".toList] "--opt".toList = none
    ∧ arg_flag_value [OsStrM.valid ("--opt".toList ++ '=' :: "w".toList)]
        "--opt".toList = some (OsStrM.valid "w".toList)
    ∧ arg_flag_value [OsStrM.invalid 3] "--opt".toList
        = arg_flag_value [] "--opt".toList :=
  ⟨arg_flag_value_spec.1 [OsStrM.invalid 7] [OsStrM.valid "x".toList]
      "--opt".toList (by decide),
   arg_flag_value_spec.2.1 [OsStrM.invalid 7] [] (OsStrM.valid "v".toList)
      "--opt".toList (by decide) (by decide),
   arg_flag_value_spec.2.2.1 [] "--opt".toList (by decide) (by decide),
   arg_flag_value_spec.2.2.2.1 [] [] "--opt".toList "w".toList (by decide),
   arg_flag_value_spec.2.2.2.2.1 3 [] "--opt".toList⟩

/-- C10: when a token equals the flag exactly, the immediately following
token is returned verbatim — even when it is the literal `"--"` separator or
not valid UTF-8; it is not subjected to the scan's checks. -/
theorem arg_flag_value_verbatim :
    (∀ (l r : List OsStrM) (flag : List Char) (n : Nat),
        (l.all fun t => !tokenHit flag t) = true → flag ≠ ddash →
        arg_flag_value (l ++ OsStrM.valid flag :: OsStrM.invalid n :: r) flag
          = some (OsStrM.invalid n))
    ∧ (∀ (l r : List OsStrM) (flag : List Char),
        (l.all fun t => !tokenHit flag t) = true → flag ≠ ddash →
        arg_flag_value (l ++ OsStrM.valid flag :: OsStrM.valid ddash :: r) flag
          = some (OsStrM.valid ddash))
    ∧ arg_flag_value [OsStrM.valid "--opt".toList, OsStrM.valid "--".toList]
        "--opt".toList = some (OsStrM.valid "--".toList)
    ∧ arg_flag_value [OsStrM.valid "--opt".toList, OsStrM.invalid 0]
        "--opt".toList = some (OsStrM.invalid 0) :=
  ⟨fun l r flag n hl hf => afv_found flag l r (OsStrM.invalid n) hl hf,
   fun l r flag hl hf => afv_found flag l r (OsStrM.valid ddash) hl hf,
   by decide, by decide⟩

/-- Witness for C10 at concrete token lists. -/
theorem arg_flag_value_verbatim_witness :
    arg_flag_value [OsStrM.valid "-f".toList, OsStrM.invalid 5] "-f".toList
      = some (OsStrM.invalid 5)
    ∧ arg_flag_value [OsStrM.valid "-f".toList, OsStrM.valid ddash] "-f".toList
      = some (OsStrM.valid ddash) :=
  ⟨arg_flag_value_verbatim.1 [] [] "-f".toList 5 (by decide) (by decide),
   arg_flag_value_verbatim.2.1 [] [] "-f".toList (by decide) (by decide)⟩

/-! ## Lemmas about `chunksOf` and `format_files` -/

theorem chunksOf_flatten {α : Type} (n : Nat) :
    ∀ (k : Nat) (l : List α), l.length ≤ k → (chunksOf n l).flatten = l := by
  intro k
  induction k with
  | zero =>
    intro l h
    have hl : l = [] := List.length_eq_zero.mp (Nat.le_zero.mp h)
    subst hl
    simp [chunksOf]
  | succ k ih =>
    intro l h
    cases l with
    | nil => simp [chunksOf]
    | cons a t =>
      rw [chunksOf]
      rw [List.flatten_cons, ih (t.drop (n - 1)) (by simp at h ⊢; omega)]
      simp [List.take_append_drop]

theorem chunksOf_length {α : Type} :
    ∀ (k : Nat) (l : List α), l.length ≤ k →
      (chunksOf 256 l).length = (l.length + 255) / 256 := by
  intro k
  induction k with
  | zero =>
    intro l h
    have hl : l = [] := List.length_eq_zero.mp (Nat.le_zero.mp h)
    subst hl
    simp [chunksOf]
  | succ k ih =>
    intro l h
    cases l with
    | nil => simp [chunksOf]
    | cons a t =>
      rw [chunksOf]
      simp only [List.length_cons]
      rw [ih (t.drop 255) (by simp at h ⊢; omega)]
      simp [List.length_drop]
      omega

theorem chunksOf_size {α : Type} :
    ∀ (k : Nat) (l : List α), l.length ≤ k →
      ∀ c ∈ chunksOf 256 l, c.length ≤ 256 := by
  intro k
  induction k with
  | zero =>
    intro l h c hc
    have hl : l = [] := List.length_eq_zero.mp (Nat.le_zero.mp h)
    subst hl
    simp [chunksOf] at hc
  | succ k ih =>
    intro l h c hc
    cases l with
    | nil => simp [chunksOf] at hc
    | cons a t =>
      rw [chunksOf] at hc
      rcases List.mem_cons.mp hc with h1 | h1
      · subst h1
        simp [List.length_take]
      · exact ih (t.drop 255) (by simp at h ⊢; omega) c h1

theorem chunksOf_map {α β : Type} (f : α → β) (n : Nat) :
    ∀ (k : Nat) (l : List α), l.length ≤ k →
      chunksOf n (l.map f) = (chunksOf n l).map (List.map f) := by
  intro k
  induction k with
  | zero =>
    intro l h
    have hl : l = [] := List.length_eq_zero.mp (Nat.le_zero.mp h)
    subst hl
    simp [chunksOf]
  | succ k ih =>
    intro l h
    cases l with
    | nil => simp [chunksOf]
    | cons a t =>
      rw [List.map_cons, chunksOf, chunksOf]
      rw [← List.map_take, ← List.map_drop, ih (t.drop (n - 1)) (by simp at h ⊢; omega)]
      simp

theorem relativizeBatch_ok (dir : List String) :
    ∀ (batch : List (List String)), (∀ f ∈ batch, ∃ r, f = dir ++ r) →
      relativizeBatch dir (batch.map Except.ok)
        = Except.ok (batch.map fun f => f.drop dir.length) := by
  intro batch
  induction batch with
  | nil => intro _; rfl
  | cons f t ih =>
    intro h
    obtain ⟨r, hr⟩ := h f (List.mem_cons_self f t)
    subst hr
    rw [List.map_cons, relativizeBatch, stripPref_append,
      ih (fun g hg => h g (List.mem_cons_of_mem _ hg))]
    simp [List.drop_left]

theorem formatRuns_ok (dir : List String) :
    ∀ (batches : List (List (List String))),
      (∀ b ∈ batches, ∀ f ∈ b, ∃ r, f = dir ++ r) →
      formatRuns dir (batches.map (List.map Except.ok))
        = Except.ok (batches.map (List.map fun f => f.drop dir.length)) := by
  intro batches
  induction batches with
  | nil => intro _; rfl
  | cons b t ih =>
    intro h
    rw [List.map_cons, formatRuns,
      relativizeBatch_ok dir b (h b (List.mem_cons_self b t)),
      ih (fun c hc => h c (List.mem_cons_of_mem _ hc)), List.map_cons]

/-- C6: for a sequence of `L` readable files below the root, `format_files`
issues exactly `⌈L/256⌉` formatting-command invocations of at most 256 files
each, and concatenating the batches in order reproduces the input sequence
(each path rewritten relative to the root): order preserved, no file
duplicated, none dropped. -/
theorem format_files_spec (dir : List String) (files : List (List String))
    (h : ∀ f ∈ files, ∃ r, f = dir ++ r) :
    ∃ bs, format_files dir (files.map Except.ok) = Except.ok bs ∧
      bs.length = (files.length + 255) / 256 ∧
      (∀ b ∈ bs, b.length ≤ 256) ∧
      (bs.map (List.map fun r => dir ++ r)).flatten = files := by
  have hmem : ∀ c ∈ chunksOf 256 files, ∀ f ∈ c, f ∈ files := by
    intro c hc f hf
    have : f ∈ (chunksOf 256 files).flatten := List.mem_flatten.mpr ⟨c, hc, hf⟩
    rwa [chunksOf_flatten 256 files.length files (Nat.le_refl _)] at this
  refine ⟨(chunksOf 256 files).map (List.map fun f => f.drop dir.length),
    ?_, ?_, ?_, ?_⟩
  · unfold format_files
    rw [chunksOf_map Except.ok 256 files.length files (Nat.le_refl _)]
    exact formatRuns_ok dir _ (fun b hb f hf => h f (hmem b hb f hf))
  · rw [List.length_map]
    exact chunksOf_length files.length files (Nat.le_refl _)
  · intro b hb
    rw [List.mem_map] at hb
    obtain ⟨c, hc, hbc⟩ := hb
    subst hbc
    rw [List.length_map]
    exact chunksOf_size files.length files (Nat.le_refl _) c hc
  · rw [List.map_map]
    have : ∀ c ∈ chunksOf 256 files,
        (List.map (fun r => dir ++ r) ∘ List.map fun f => f.drop dir.length) c
          = id c := by
      intro c hc
      simp only [Function.comp_apply, List.map_map]
      have : ∀ f ∈ c,
          ((fun r => dir ++ r) ∘ fun f => List.drop dir.length f) f = id f := by
        intro f hf
        obtain ⟨r, hr⟩ := h f (hmem c hc f hf)
        subst hr
        simp [List.drop_left]
      rw [List.map_congr_left this, List.map_id]
      rfl
    rw [List.map_congr_left this, List.map_id]
    exact chunksOf_flatten 256 files.length files (Nat.le_refl _)

/-- Witness for C6 at a concrete two-file sequence. -/
theorem format_files_spec_witness :
    ∃ bs, format_files ["root"]
        (([["root", "a"], ["root", "b"]] : List (List String)).map Except.ok)
        = Except.ok bs ∧
      bs.length
        = (([["root", "a"], ["root", "b"]] : List (List String)).length + 255) / 256 ∧
      (∀ b ∈ bs, b.length ≤ 256) ∧
      (bs.map (List.map fun r => ["root"] ++ r)).flatten
        = [["root", "a"], ["root", "b"]] :=
  format_files_spec ["root"] [["root", "a"], ["root", "b"]] (by
    intro f hf
    rcases List.mem_cons.mp hf with h1 | h1
    · exact ⟨["a"], by rw [h1]; rfl⟩
    · rcases List.mem_cons.mp h1 with h2 | h2
      · exact ⟨["b"], by rw [h2]; rfl⟩
      · simp at h2)

/-! ## The parallel runner `run_many_times` -/

theorem sum_comp_update {M : Type} [AddCommMonoid M] {n : Nat} (w : Fin n → PC)
    (i : Fin n) (x : PC) (g : PC → M) :
    (Finset.univ.sum fun j => g (Function.update w i x j))
      = g x + (Finset.univ.erase i).sum fun j => g (w j) := by
  have h : ∀ j, g (Function.update w i x j)
      = Function.update (fun k => g (w k)) i (g x) j := by
    intro j
    by_cases hj : j = i
    · subst hj; simp
    · simp [Function.update_apply, hj]
  rw [Finset.sum_congr rfl (fun j _ => h j)]
  rw [Finset.sum_update_of_mem (Finset.mem_univ i)]
  rw [Finset.sdiff_singleton_eq_erase]

theorem sum_pc_split {M : Type} [AddCommMonoid M] {n : Nat} (w : Fin n → PC)
    (i : Fin n) (g : PC → M) :
    (Finset.univ.sum fun j => g (w j))
      = g (w i) + (Finset.univ.erase i).sum fun j => g (w j) :=
  (Finset.add_sum_erase _ _ (Finset.mem_univ i)).symm

theorem doneCount_lt {n : Nat} (s : RState n) (i : Fin n)
    (h : isFinished (s.workers i) = false) : doneCount s < n := by
  have h1 : doneCount s = dOne (s.workers i)
      + (Finset.univ.erase i).sum fun j => dOne (s.workers j) :=
    sum_pc_split s.workers i dOne
  have h2 : dOne (s.workers i) = 0 := by simp [dOne, h]
  have h3 : ((Finset.univ.erase i).sum fun j => dOne (s.workers j))
      ≤ (Finset.univ.erase i).card * 1 := by
    have := Finset.sum_le_card_nsmul (Finset.univ.erase i)
      (fun j => dOne (s.workers j)) 1 (by intro j _; simp [dOne]; split <;> omega)
    simpa using this
  have h4 : (Finset.univ.erase i).card = n - 1 := by
    rw [Finset.card_erase_of_mem (Finset.mem_univ i)]
    simp
  have h5 : 0 < n := i.pos
  omega

theorem doneCountW_update {n : Nat} (w : Fin n → PC) (i : Fin n) (x : PC) :
    doneCountW (Function.update w i x)
      = dOne x + (Finset.univ.erase i).sum fun j => dOne (w j) :=
  sum_comp_update w i x dOne

theorem doneCountW_split {n : Nat} (w : Fin n → PC) (i : Fin n) :
    doneCountW w = dOne (w i) + (Finset.univ.erase i).sum fun j => dOne (w j) :=
  sum_pc_split w i dOne

theorem pendingW_update {n : Nat} (w : Fin n → PC) (i : Fin n) (x : PC) :
    pendingW (Function.update w i x)
      = pcPend x + (Finset.univ.erase i).sum fun j => pcPend (w j) :=
  sum_comp_update w i x pcPend

theorem pendingW_split {n : Nat} (w : Fin n → PC) (i : Fin n) :
    pendingW w = pcPend (w i) + (Finset.univ.erase i).sum fun j => pcPend (w j) :=
  sum_pc_split w i pcPend

theorem nfinv_init (start e P : Nat) : NFInv start e (initState start P) := by
  refine ⟨rfl, fun i => Or.inl rfl, ?_, ?_, ?_⟩
  · show start % u32size = (start + 0) % u32size
    rw [Nat.add_zero]
  · show (0 : Nat) = min 0 (e - start) + doneCountW (fun _ => PC.claim)
    have h : doneCountW (P := P) (fun _ => PC.claim) = 0 := by
      unfold doneCountW
      simp [dOne, isFinished]
    rw [h]
    omega
  · show (0 : Multiset Nat) + pendingW (fun _ => PC.claim)
      = ((List.range' start (min 0 (e - start)) : List Nat) : Multiset Nat)
    have h : pendingW (P := P) (fun _ => PC.claim) = 0 := by
      unfold pendingW
      simp [pcPend]
    rw [h]
    simp

theorem nfinv_step {P : Nat} {op : Nat → Bool} {start e : Nat} {s s' : RState P}
    (hop : ∀ n, op n = true) (hov1 : start + P ≤ u32size) (hov2 : e + P ≤ u32size)
    (inv : NFInv start e s) (hstep : Step op e s s') : NFInv start e s' := by
  obtain ⟨hfail, hpc, hnext, hcount, hdisp⟩ := inv
  cases hstep with
  | claim_done i hw hge =>
    have hdc : doneCount s < P := doneCount_lt s i (by rw [hw]; rfl)
    have hbound : start + s.claims < u32size := by
      have hmin := Nat.min_le_right s.claims (e - start)
      omega
    have hnexteq : s.next = start + s.claims := by rw [hnext, Nat.mod_eq_of_lt hbound]
    have hge' : e ≤ start + s.claims := by rw [← hnexteq]; exact hge
    refine ⟨hfail, ?_, ?_, ?_, ?_⟩
    · intro j
      dsimp only
      by_cases hj : j = i
      · subst hj
        rw [Function.update_same]
        exact Or.inr (Or.inr (Or.inr rfl))
      · rw [Function.update_noteq hj]
        exact hpc j
    · show (s.next + 1) % u32size = (start + (s.claims + 1)) % u32size
      rw [hnexteq, Nat.add_assoc]
    · show s.claims + 1 = min (s.claims + 1) (e - start)
        + doneCountW (Function.update s.workers i (PC.finished true))
      rw [doneCountW_update]
      have hsplit : doneCount s = dOne (s.workers i)
          + (Finset.univ.erase i).sum fun j => dOne (s.workers j) :=
        doneCountW_split s.workers i
      rw [hw] at hsplit
      have h0 : dOne PC.claim = 0 := rfl
      have h1 : dOne (PC.finished true) = 1 := rfl
      omega
    · show s.dispatched + pendingW (Function.update s.workers i (PC.finished true))
        = ((List.range' start (min (s.claims + 1) (e - start)) : List Nat) : Multiset Nat)
      rw [pendingW_update]
      have hsplit : pending s = pcPend (s.workers i)
          + (Finset.univ.erase i).sum fun j => pcPend (s.workers j) :=
        pendingW_split s.workers i
      rw [hw] at hsplit
      have h0 : pcPend PC.claim = 0 := rfl
      have h1 : pcPend (PC.finished true) = 0 := rfl
      rw [h0, zero_add] at hsplit
      rw [h1, zero_add, ← hsplit]
      have hminEq : min (s.claims + 1) (e - start) = min s.claims (e - start) := by omega
      rw [hminEq]
      exact hdisp
  | claim_work i hw hlt =>
    have hdc : doneCount s < P := doneCount_lt s i (by rw [hw]; rfl)
    have hbound : start + s.claims < u32size := by
      have hmin := Nat.min_le_right s.claims (e - start)
      omega
    have hnexteq : s.next = start + s.claims := by rw [hnext, Nat.mod_eq_of_lt hbound]
    have hlt' : start + s.claims < e := by rw [← hnexteq]; exact hlt
    have hdc0 : doneCount s = 0 := by
      have hmin : min s.claims (e - start) = s.claims := by omega
      omega
    refine ⟨hfail, ?_, ?_, ?_, ?_⟩
    · intro j
      dsimp only
      by_cases hj : j = i
      · subst hj
        rw [Function.update_same]
        exact Or.inr (Or.inl ⟨s.next, rfl⟩)
      · rw [Function.update_noteq hj]
        exact hpc j
    · show (s.next + 1) % u32size = (start + (s.claims + 1)) % u32size
      rw [hnexteq, Nat.add_assoc]
    · show s.claims + 1 = min (s.claims + 1) (e - start)
        + doneCountW (Function.update s.workers i (PC.runOp s.next))
      rw [doneCountW_update]
      have hsplit : doneCount s = dOne (s.workers i)
          + (Finset.univ.erase i).sum fun j => dOne (s.workers j) :=
        doneCountW_split s.workers i
      rw [hw] at hsplit
      have h0 : dOne PC.claim = 0 := rfl
      have h1 : dOne (PC.runOp s.next) = 0 := rfl
      omega
    · show s.dispatched + pendingW (Function.update s.workers i (PC.runOp s.next))
        = ((List.range' start (min (s.claims + 1) (e - start)) : List Nat) : Multiset Nat)
      rw [pendingW_update]
      have hsplit : pending s = pcPend (s.workers i)
          + (Finset.univ.erase i).sum fun j => pcPend (s.workers j) :=
        pendingW_split s.workers i
      rw [hw] at hsplit
      have h0 : pcPend PC.claim = 0 := rfl
      rw [h0, zero_add] at hsplit
      have h1 : pcPend (PC.runOp s.next) = {s.next} := rfl
      rw [h1, ← hsplit]
      have hmin1 : min s.claims (e - start) = s.claims := by omega
      have hmin2 : min (s.claims + 1) (e - start) = s.claims + 1 := by omega
      rw [hmin1] at hdisp
      rw [hmin2, List.range'_concat, hnexteq]
      rw [← Multiset.coe_add, ← hdisp]
      have : start + 1 * s.claims = start + s.claims := by omega
      rw [this]
      have hsing : ((([start + s.claims] : List Nat)) : Multiset Nat)
          = ({start + s.claims} : Multiset Nat) := Multiset.coe_singleton _
      rw [hsing]
      abel
  | run_ok i c hw hopc =>
    refine ⟨hfail, ?_, hnext, ?_, ?_⟩
    · intro j
      dsimp only
      by_cases hj : j = i
      · subst hj
        rw [Function.update_same]
        exact Or.inr (Or.inr (Or.inl rfl))
      · rw [Function.update_noteq hj]
        exact hpc j
    · show s.claims = min s.claims (e - start)
        + doneCountW (Function.update s.workers i PC.checkFlag)
      rw [doneCountW_update]
      have hsplit : doneCount s = dOne (s.workers i)
          + (Finset.univ.erase i).sum fun j => dOne (s.workers j) :=
        doneCountW_split s.workers i
      rw [hw] at hsplit
      have h0 : dOne (PC.runOp c) = 0 := rfl
      have h1 : dOne PC.checkFlag = 0 := rfl
      omega
    · show Multiset.cons c s.dispatched + pendingW (Function.update s.workers i PC.checkFlag)
        = ((List.range' start (min s.claims (e - start)) : List Nat) : Multiset Nat)
      rw [pendingW_update]
      have hsplit : pending s = pcPend (s.workers i)
          + (Finset.univ.erase i).sum fun j => pcPend (s.workers j) :=
        pendingW_split s.workers i
      rw [hw] at hsplit
      have h0 : pcPend (PC.runOp c) = {c} := rfl
      have h1 : pcPend PC.checkFlag = 0 := rfl
      rw [h0] at hsplit
      rw [h1, zero_add, ← hdisp, hsplit, ← Multiset.singleton_add]
      abel
  | run_fail i c hw hopc =>
    rw [hop c] at hopc
    exact absurd hopc (by simp)
  | set_flag i hw =>
    rcases hpc i with h | ⟨c, h⟩ | h | h <;> rw [hw] at h <;> simp at h
  | check_stop i hw hfl =>
    rw [hfail] at hfl
    exact absurd hfl (by simp)
  | check_continue i hw hfl =>
    refine ⟨hfail, ?_, hnext, ?_, ?_⟩
    · intro j
      dsimp only
      by_cases hj : j = i
      · subst hj
        rw [Function.update_same]
        exact Or.inl rfl
      · rw [Function.update_noteq hj]
        exact hpc j
    · show s.claims = min s.claims (e - start)
        + doneCountW (Function.update s.workers i PC.claim)
      rw [doneCountW_update]
      have hsplit : doneCount s = dOne (s.workers i)
          + (Finset.univ.erase i).sum fun j => dOne (s.workers j) :=
        doneCountW_split s.workers i
      rw [hw] at hsplit
      have h0 : dOne PC.checkFlag = 0 := rfl
      have h1 : dOne PC.claim = 0 := rfl
      omega
    · show s.dispatched + pendingW (Function.update s.workers i PC.claim)
        = ((List.range' start (min s.claims (e - start)) : List Nat) : Multiset Nat)
      rw [pendingW_update]
      have hsplit : pending s = pcPend (s.workers i)
          + (Finset.univ.erase i).sum fun j => pcPend (s.workers j) :=
        pendingW_split s.workers i
      rw [hw] at hsplit
      have h0 : pcPend PC.checkFlag = 0 := rfl
      rw [h0, zero_add] at hsplit
      have h1 : pcPend PC.claim = 0 := rfl
      rw [h1, zero_add, ← hsplit]
      exact hdisp

theorem nfinv_reach {P : Nat} {op : Nat → Bool} {start e : Nat}
    (hop : ∀ n, op n = true) (hov1 : start + P ≤ u32size) (hov2 : e + P ≤ u32size)
    {s : RState P} (hr : Reach op e (initState start P) s) : NFInv start e s := by
  unfold Reach at hr
  induction hr with
  | refl => exact nfinv_init start e P
  | tail h1 h2 ih => exact nfinv_step hop hov1 hov2 ih h2

theorem nfinv_safety {P start e : Nat} {s : RState P} (inv : NFInv start e s) :
    s.dispatched ≤ ((List.range' start (e - start) : List Nat) : Multiset Nat) := by
  have h1 : s.dispatched ≤ s.dispatched + pending s := Multiset.le_add_right _ _
  rw [inv.hdisp] at h1
  refine le_trans h1 ?_
  have happ := List.range'_append start (min s.claims (e - start))
    ((e - start) - min s.claims (e - start)) 1
  have hnm : (e - start) - min s.claims (e - start) + min s.claims (e - start)
      = e - start := by omega
  rw [hnm] at happ
  calc ((List.range' start (min s.claims (e - start)) : List Nat) : Multiset Nat)
      ≤ ((List.range' start (min s.claims (e - start)) : List Nat) : Multiset Nat)
        + ((List.range' (start + 1 * min s.claims (e - start))
            ((e - start) - min s.claims (e - start)) : List Nat) : Multiset Nat) :=
        Multiset.le_add_right _ _
    _ = (((List.range' start (min s.claims (e - start))
          ++ List.range' (start + 1 * min s.claims (e - start))
            ((e - start) - min s.claims (e - start))) : List Nat) : Multiset Nat) :=
        Multiset.coe_add _ _
    _ = ((List.range' start (e - start) : List Nat) : Multiset Nat) := by rw [happ]

theorem nfinv_terminal {P start e : Nat} {s : RState P} (hP : 0 < P)
    (inv : NFInv start e s) (ht : Terminal s) :
    s.dispatched = ((List.range' start (e - start) : List Nat) : Multiset Nat)
      ∧ (∀ i, s.workers i = PC.finished true) ∧ s.failed = false := by
  have hall : ∀ i, s.workers i = PC.finished true := by
    intro i
    rcases inv.hpc i with h | ⟨c, h⟩ | h | h
    · exact absurd (ht i) (by rw [h]; simp [isFinished])
    · exact absurd (ht i) (by rw [h]; simp [isFinished])
    · exact absurd (ht i) (by rw [h]; simp [isFinished])
    · exact h
  have hdcP : doneCount s = P := by
    unfold doneCount doneCountW
    rw [Finset.sum_congr rfl (fun j _ => by rw [hall j])]
    simp [dOne, isFinished]
  have hcnt := inv.hcount
  rw [hdcP] at hcnt
  have hpend : pending s = 0 := by
    unfold pending pendingW
    rw [Finset.sum_congr rfl (fun j _ => by rw [hall j])]
    simp [pcPend]
  have hmin : min s.claims (e - start) = e - start := by omega
  have hd := inv.hdisp
  rw [hpend, add_zero, hmin] at hd
  exact ⟨hd, hall, inv.hfail⟩

theorem empinv_init (start P : Nat) : EmpInv start (initState start P) := by
  refine ⟨rfl, fun i => Or.inl rfl, ?_, ?_, rfl⟩
  · show start % u32size = (start + 0) % u32size
    rw [Nat.add_zero]
  · show (0 : Nat) = doneCountW (fun _ => PC.claim)
    have h : doneCountW (P := P) (fun _ => PC.claim) = 0 := by
      unfold doneCountW
      simp [dOne, isFinished]
    rw [h]

theorem empinv_step {P : Nat} {op : Nat → Bool} {start e : Nat} {s s' : RState P}
    (he : e ≤ start) (hov : start + P ≤ u32size)
    (inv : EmpInv start s) (hstep : Step op e s s') : EmpInv start s' := by
  obtain ⟨hfail, hpc, hnext, hcount, hdisp⟩ := inv
  cases hstep with
  | claim_done i hw hge =>
    have hdc : doneCount s < P := doneCount_lt s i (by rw [hw]; rfl)
    refine ⟨hfail, ?_, ?_, ?_, hdisp⟩
    · intro j
      dsimp only
      by_cases hj : j = i
      · subst hj
        rw [Function.update_same]
        exact Or.inr rfl
      · rw [Function.update_noteq hj]
        exact hpc j
    · show (s.next + 1) % u32size = (start + (s.claims + 1)) % u32size
      have hbound : start + s.claims < u32size := by omega
      rw [hnext, Nat.mod_eq_of_lt hbound, Nat.add_assoc]
    · show s.claims + 1 = doneCountW (Function.update s.workers i (PC.finished true))
      rw [doneCountW_update]
      have hsplit : doneCount s = dOne (s.workers i)
          + (Finset.univ.erase i).sum fun j => dOne (s.workers j) :=
        doneCountW_split s.workers i
      rw [hw] at hsplit
      have h0 : dOne PC.claim = 0 := rfl
      have h1 : dOne (PC.finished true) = 1 := rfl
      omega
  | claim_work i hw hlt =>
    have hdc : doneCount s < P := doneCount_lt s i (by rw [hw]; rfl)
    have hbound : start + s.claims < u32size := by omega
    have hnexteq : s.next = start + s.claims := by rw [hnext, Nat.mod_eq_of_lt hbound]
    rw [hnexteq] at hlt
    omega
  | run_ok i c hw hopc =>
    rcases hpc i with h | h <;> rw [hw] at h <;> simp at h
  | run_fail i c hw hopc =>
    rcases hpc i with h | h <;> rw [hw] at h <;> simp at h
  | set_flag i hw =>
    rcases hpc i with h | h <;> rw [hw] at h <;> simp at h
  | check_stop i hw hfl =>
    rcases hpc i with h | h <;> rw [hw] at h <;> simp at h
  | check_continue i hw hfl =>
    rcases hpc i with h | h <;> rw [hw] at h <;> simp at h

theorem empinv_reach {P : Nat} {op : Nat → Bool} {start e : Nat}
    (he : e ≤ start) (hov : start + P ≤ u32size)
    {s : RState P} (hr : Reach op e (initState start P) s) : EmpInv start s := by
  unfold Reach at hr
  induction hr with
  | refl => exact empinv_init start P
  | tail h1 h2 ih => exact empinv_step he hov ih h2

theorem empinv_terminal {P start : Nat} {s : RState P}
    (inv : EmpInv start s) (ht : Terminal s) :
    (∀ i, s.workers i = PC.finished true) ∧ s.failed = false := by
  refine ⟨fun i => ?_, inv.hfail⟩
  rcases inv.hpc i with h | h
  · exact absurd (ht i) (by rw [h]; simp [isFinished])
  · exact h

theorem flaginv_step {P : Nat} {op : Nat → Bool} {e : Nat} {s s' : RState P}
    (inv : FlagInv s) (hstep : Step op e s s') : FlagInv s' := by
  cases hstep with
  | claim_done i hw hge =>
    intro hf
    obtain ⟨j, hj⟩ := inv hf
    have hij : j ≠ i := by
      intro hji; subst hji; rcases hj with hj | hj <;> rw [hw] at hj <;> simp at hj
    exact ⟨j, by dsimp only; rw [Function.update_noteq hij]; exact hj⟩
  | claim_work i hw hlt =>
    intro hf
    obtain ⟨j, hj⟩ := inv hf
    have hij : j ≠ i := by
      intro hji; subst hji; rcases hj with hj | hj <;> rw [hw] at hj <;> simp at hj
    exact ⟨j, by dsimp only; rw [Function.update_noteq hij]; exact hj⟩
  | run_ok i c hw hopc =>
    intro hf
    obtain ⟨j, hj⟩ := inv hf
    have hij : j ≠ i := by
      intro hji; subst hji; rcases hj with hj | hj <;> rw [hw] at hj <;> simp at hj
    exact ⟨j, by dsimp only; rw [Function.update_noteq hij]; exact hj⟩
  | run_fail i c hw hopc =>
    intro hf
    obtain ⟨j, hj⟩ := inv hf
    have hij : j ≠ i := by
      intro hji; subst hji; rcases hj with hj | hj <;> rw [hw] at hj <;> simp at hj
    exact ⟨j, by dsimp only; rw [Function.update_noteq hij]; exact hj⟩
  | set_flag i hw =>
    intro _
    exact ⟨i, Or.inr (by dsimp only; rw [Function.update_same])⟩
  | check_stop i hw hfl =>
    intro hf
    obtain ⟨j, hj⟩ := inv hf
    have hij : j ≠ i := by
      intro hji; subst hji; rcases hj with hj | hj <;> rw [hw] at hj <;> simp at hj
    exact ⟨j, by dsimp only; rw [Function.update_noteq hij]; exact hj⟩
  | check_continue i hw hfl =>
    intro hf
    obtain ⟨j, hj⟩ := inv hf
    have hij : j ≠ i := by
      intro hji; subst hji; rcases hj with hj | hj <;> rw [hw] at hj <;> simp at hj
    exact ⟨j, by dsimp only; rw [Function.update_noteq hij]; exact hj⟩

theorem flaginv_reach {P : Nat} {op : Nat → Bool} {start e : Nat}
    {s : RState P} (hr : Reach op e (initState start P) s) : FlagInv s := by
  unfold Reach at hr
  induction hr with
  | refl => intro hf; exact absurd hf (by simp [initState])
  | tail h1 h2 ih => exact flaginv_step ih h2

/-- C1 (amended): for a work range `[start, e)` with `start ≤ e` whose upper
end plus the worker count does not overflow the `u32` counter, and an
operation that always succeeds, every reachable state has dispatched only
in-range units with no duplicates, and every terminal state has dispatched
exactly the units of the range, each exactly once. -/
theorem run_many_times_dispatch (P : Nat) (op : Nat → Bool) (start e : Nat)
    (hop : ∀ n, op n = true) (hP : 0 < P) (hse : start ≤ e)
    (hov : e + P ≤ u32size) :
    ∀ s : RState P, Reach op e (initState start P) s →
      s.dispatched ≤ ((List.range' start (e - start) : List Nat) : Multiset Nat)
      ∧ (Terminal s →
          s.dispatched
            = ((List.range' start (e - start) : List Nat) : Multiset Nat)) := by
  intro s hr
  have hov1 : start + P ≤ u32size := by omega
  have inv := nfinv_reach hop hov1 hov hr
  exact ⟨nfinv_safety inv, fun ht => (nfinv_terminal hP inv ht).1⟩

/-- Witness for the amended C1: a complete 1-worker run over `[0, 1)`
dispatches exactly `{0}`. -/
theorem run_many_times_dispatch_witness :
    Multiset.cons 0 (0 : Multiset Nat)
      = ((List.range' 0 1 : List Nat) : Multiset Nat) := by
  have h := (run_many_times_dispatch 1 (fun _ => true) 0 1 (fun _ => rfl) (by decide)
      (by decide) (by decide) _
      (Relation.ReflTransGen.head (Step.claim_work (initState 0 1) 0 rfl (by decide))
        (Relation.ReflTransGen.head (Step.run_ok _ 0 0 (by decide) rfl)
          (Relation.ReflTransGen.head (Step.check_continue _ 0 (by decide) rfl)
            (Relation.ReflTransGen.head (Step.claim_done _ 0 (by decide) (by decide))
              Relation.ReflTransGen.refl))))).2 (by decide)
  exact h

/-- C1 counterexample: for the (empty) `u32` range
`[4294967295, 4294967295)` with two workers, the shared counter wraps
around after the first worker retires, and the second worker claims and
dispatches unit `0`, which is not in the range: without the overflow side
condition the dispatch property is false. -/
theorem run_many_times_dispatch_counterexample :
    ¬ (∀ (P : Nat) (op : Nat → Bool) (start e : Nat), (∀ n, op n = true) →
        0 < P → start < u32size → e < u32size → start ≤ e →
        ∀ s : RState P, Reach op e (initState start P) s →
          s.dispatched ≤ ((List.range' start (e - start) : List Nat) : Multiset Nat)
          ∧ (Terminal s →
              s.dispatched
                = ((List.range' start (e - start) : List Nat) : Multiset Nat))) := by
  intro h
  have hs := (h 2 (fun _ => true) 4294967295 4294967295 (fun _ => rfl) (by decide)
      (by decide) (by decide) (Nat.le_refl _) _
      (Relation.ReflTransGen.head
        (Step.claim_done (initState 4294967295 2) 0 rfl (by decide))
        (Relation.ReflTransGen.head (Step.claim_work _ 1 (by decide) (by decide))
          (Relation.ReflTransGen.head (Step.run_ok _ 1 0 (by decide) rfl)
            Relation.ReflTransGen.refl)))).1
  have hz : Multiset.cons 0 (0 : Multiset Nat) = 0 := Multiset.le_zero.mp hs
  exact Multiset.cons_ne_zero hz

/-- C3: if, after a run, every worker closure has returned `Ok`, the shared
failure flag is still clear, so the `assert!(!failed...)` at the end of
`run_many_times` cannot fire. -/
theorem run_many_times_assert (P : Nat) (op : Nat → Bool) (start e : Nat)
    (s : RState P) (hr : Reach op e (initState start P) s)
    (hok : ∀ i, s.workers i = PC.finished true) : s.failed = false := by
  have inv := flaginv_reach hr
  cases hb : s.failed with
  | false => rfl
  | true =>
    obtain ⟨j, hj⟩ := inv hb
    rcases hj with hj | hj <;> rw [hok j] at hj <;> simp at hj

/-- Witness for C3: a complete 1-worker run over the empty range `[0, 0)`
joins with all workers `Ok` and the flag clear. -/
theorem run_many_times_assert_witness : (false : Bool) = false :=
  run_many_times_assert 1 (fun _ => true) 0 0 _
    (Relation.ReflTransGen.head (Step.claim_done (initState 0 1) 0 rfl (by decide))
      Relation.ReflTransGen.refl)
    (by decide)

/-- C7: within one run the failure flag is monotone: no step lowers it, and
any step that changes it stores `true` (every write to the flag is a store
of `true`). -/
theorem failed_flag_monotone {P : Nat} (op : Nat → Bool) (e : Nat)
    (s s' : RState P) (h : Step op e s s') :
    (s.failed = true → s'.failed = true)
      ∧ (s'.failed ≠ s.failed → s'.failed = true) := by
  cases h with
  | claim_done i hw hge => exact ⟨fun hf => hf, fun hne => absurd rfl hne⟩
  | claim_work i hw hlt => exact ⟨fun hf => hf, fun hne => absurd rfl hne⟩
  | run_ok i c hw hopc => exact ⟨fun hf => hf, fun hne => absurd rfl hne⟩
  | run_fail i c hw hopc => exact ⟨fun hf => hf, fun hne => absurd rfl hne⟩
  | set_flag i hw => exact ⟨fun _ => rfl, fun _ => rfl⟩
  | check_stop i hw hfl => exact ⟨fun hf => hf, fun hne => absurd rfl hne⟩
  | check_continue i hw hfl => exact ⟨fun hf => hf, fun hne => absurd rfl hne⟩

/-- Witness for C7 at a concrete step of a 1-worker run. -/
theorem failed_flag_monotone_witness :
    ((false : Bool) = true → (false : Bool) = true)
      ∧ ((false : Bool) ≠ false → (false : Bool) = true) :=
  failed_flag_monotone (fun _ => true) 0 (initState 0 1) _
    (Step.claim_done (initState 0 1) 0 rfl (by decide))

/-- C8: running over the empty range `[5, 5)` dispatches nothing in any
reachable state, and at the join every worker has returned `Ok` with the
failure flag clear, i.e. the call returns success with zero invocations of
the operation. -/
theorem run_many_times_empty (P : Nat) (op : Nat → Bool)
    (hov : 5 + P ≤ u32size) :
    ∀ s : RState P, Reach op 5 (initState 5 P) s →
      s.dispatched = 0
      ∧ (Terminal s →
          (∀ i, s.workers i = PC.finished true) ∧ s.failed = false) := by
  intro s hr
  have inv := empinv_reach (Nat.le_refl 5) hov hr
  exact ⟨inv.hdisp, fun ht => empinv_terminal inv ht⟩

/-- Witness for C8: a complete 1-worker run over `[5, 5)`. -/
theorem run_many_times_empty_witness :
    (0 : Multiset Nat) = 0
      ∧ Function.update (fun _ : Fin 1 => PC.claim) 0 (PC.finished true) 0
          = PC.finished true :=
  ⟨(run_many_times_empty 1 (fun _ => true) (by decide) _
      (Relation.ReflTransGen.head (Step.claim_done (initState 5 1) 0 rfl (by decide))
        Relation.ReflTransGen.refl)).1,
   ((run_many_times_empty 1 (fun _ => true) (by decide) _
      (Relation.ReflTransGen.head (Step.claim_done (initState 5 1) 0 rfl (by decide))
        Relation.ReflTransGen.refl)).2 (by decide)).1 0⟩

/-- C9 counterexample: for the reversed range `[4294967295, 3)` with two
workers, the first worker's failed claim wraps the counter to `0 < 3`, so
the second worker dispatches unit `0`: a reversed range does not always
mean zero invocations. -/
theorem run_many_times_reversed_counterexample :
    ¬ (∀ (P : Nat) (op : Nat → Bool) (start e : Nat), e < start → 0 < P →
        ∀ s : RState P, Reach op e (initState start P) s →
          s.dispatched = 0) := by
  intro h
  have hs := h 2 (fun _ => true) 4294967295 3 (by decide) (by decide) _
    (Relation.ReflTransGen.head
      (Step.claim_done (initState 4294967295 2) 0 rfl (by decide))
      (Relation.ReflTransGen.head (Step.claim_work _ 1 (by decide) (by decide))
        (Relation.ReflTransGen.head (Step.run_ok _ 1 0 (by decide) rfl)
          Relation.ReflTransGen.refl)))
  have hs' : Multiset.cons 0 (0 : Multiset Nat) = 0 := hs
  exact Multiset.cons_ne_zero hs'

/-- C9 (amended): for a reversed range `[start, e)` with `e < start`, as
long as `start` plus the worker count does not overflow the `u32` counter,
nothing is ever dispatched and the run joins with every worker `Ok` and the
flag clear — the same behaviour as an empty range. -/
theorem run_many_times_reversed (P : Nat) (op : Nat → Bool) (start e : Nat)
    (he : e < start) (hov : start + P ≤ u32size) :
    ∀ s : RState P, Reach op e (initState start P) s →
      s.dispatched = 0
      ∧ (Terminal s →
          (∀ i, s.workers i = PC.finished true) ∧ s.failed = false) := by
  intro s hr
  have inv := empinv_reach (Nat.le_of_lt he) hov hr
  exact ⟨inv.hdisp, fun ht => empinv_terminal inv ht⟩

/-- Witness for the amended C9: a complete 1-worker run over `[10, 3)`. -/
theorem run_many_times_reversed_witness :
    (0 : Multiset Nat) = 0
      ∧ Function.update (fun _ : Fin 1 => PC.claim) 0 (PC.finished true) 0
          = PC.finished true :=
  ⟨(run_many_times_reversed 1 (fun _ => true) 10 3 (by decide) (by decide) _
      (Relation.ReflTransGen.head (Step.claim_done (initState 10 1) 0 rfl (by decide))
        Relation.ReflTransGen.refl)).1,
   ((run_many_times_reversed 1 (fun _ => true) 10 3 (by decide) (by decide) _
      (Relation.ReflTransGen.head (Step.claim_done (initState 10 1) 0 rfl (by decide))
        Relation.ReflTransGen.refl)).2 (by decide)).1 0⟩

end MiriScript
